import Mathlib

/-!
Verification development for the pebble compaction core.

The development shallowly embeds the two source files under scrutiny:
the db package (internal keys and their encoding/comparison) together
with the compaction iterator, and metrics.go (per-level metrics, their
additive combiner, and the totals row).

Bytes are modelled as natural numbers (values below 256 where the code
guarantees it), byte slices as lists of naturals, and machine integers
as Nat (for the unsigned types) or Int (for the signed types) with the
wrap-around of Go arithmetic made explicit by reduction modulo 2^64
(respectively the twos-complement wrap) exactly where the source
performs a machine operation.
-/

namespace Pebble

/-! ## Internal keys (db package) -/

/-- Kind code for a point deletion record (source: InternalKeyKindDelete = 0). -/
def InternalKeyKindDelete : Nat := 0

/-- Kind code for a set record (source: InternalKeyKindSet = 1). -/
def InternalKeyKindSet : Nat := 1

/-- Kind code for a merge record (source: InternalKeyKindMerge = 2). -/
def InternalKeyKindMerge : Nat := 2

/-- Kind code for a log-data record (source: InternalKeyKindLogData = 3). -/
def InternalKeyKindLogData : Nat := 3

/-- Kind code for a range deletion record (source: InternalKeyKindRangeDelete = 15). -/
def InternalKeyKindRangeDelete : Nat := 15

/-- Largest kind code considered valid (source: InternalKeyKindMax = 17). -/
def InternalKeyKindMax : Nat := 17

/-- Marker kind for an invalid key (source: InternalKeyKindInvalid = 255). -/
def InternalKeyKindInvalid : Nat := 255

/-- Bit set on batch sequence numbers (source: InternalKeySeqNumBatch = 1 << 55). -/
def InternalKeySeqNumBatch : Nat := 2 ^ 55

/-- Largest valid sequence number (source: InternalKeySeqNumMax = 1<<56 - 1). -/
def InternalKeySeqNumMax : Nat := 2 ^ 56 - 1

/-- An internal key: the user key bytes together with the 64-bit trailer
holding the sequence number (high 56 bits) and the kind (low 8 bits).
Mirrors the Go struct InternalKey { UserKey []byte; trailer uint64 }. -/
structure InternalKey where
  userKey : List Nat
  trailer : Nat
deriving DecidableEq

/-- MakeInternalKey from the source: trailer = (seqNum << 8) | uint64(kind),
computed in uint64 arithmetic, hence the reduction modulo 2^64 after the
shift. -/
def MakeInternalKey (userKey : List Nat) (seqNum : Nat) (kind : Nat) : InternalKey :=
  ⟨userKey, ((seqNum <<< 8) % 2 ^ 64) ||| kind⟩

/-- The eight bytes written by binary.LittleEndian.PutUint64. -/
def putUint64LE (t : Nat) : List Nat :=
  [t % 256, t / 2 ^ 8 % 256, t / 2 ^ 16 % 256, t / 2 ^ 24 % 256,
   t / 2 ^ 32 % 256, t / 2 ^ 40 % 256, t / 2 ^ 48 % 256, t / 2 ^ 56 % 256]

/-- The value read by binary.LittleEndian.Uint64 from the first eight bytes. -/
def leUint64 (b : List Nat) : Nat :=
  b.getD 0 0 + b.getD 1 0 * 2 ^ 8 + b.getD 2 0 * 2 ^ 16 + b.getD 3 0 * 2 ^ 24 +
  b.getD 4 0 * 2 ^ 32 + b.getD 5 0 * 2 ^ 40 + b.getD 6 0 * 2 ^ 48 + b.getD 7 0 * 2 ^ 56

/-- InternalKey.Encode from the source: copy the user key, then write the
trailer as eight little-endian bytes after it.  The Go method fills a
caller-supplied buffer of size Size(); the model returns the filled buffer. -/
def InternalKey.Encode (k : InternalKey) : List Nat :=
  k.userKey ++ putUint64LE k.trailer

/-- DecodeInternalKey from the source: with fewer than eight bytes the result
is an invalid key carrying the whole input as user key; otherwise the last
eight bytes are the little-endian trailer and the rest is the user key. -/
def DecodeInternalKey (encodedKey : List Nat) : InternalKey :=
  if encodedKey.length < 8 then
    MakeInternalKey encodedKey 0 InternalKeyKindInvalid
  else
    ⟨encodedKey.take (encodedKey.length - 8), leUint64 (encodedKey.drop (encodedKey.length - 8))⟩

/-- InternalKey.SeqNum from the source: trailer >> 8. -/
def InternalKey.SeqNum (k : InternalKey) : Nat := k.trailer >>> 8

/-- InternalKey.Kind from the source: trailer & 0xff. -/
def InternalKey.Kind (k : InternalKey) : Nat := k.trailer &&& 255

/-- InternalKey.Valid from the source: the kind is at most InternalKeyKindMax. -/
def InternalKey.Valid (k : InternalKey) : Bool := k.Kind ≤ InternalKeyKindMax

/-- Go bytes.Compare: lexicographic byte-wise comparison returning -1, 0 or 1. -/
def bytesCompare : List Nat → List Nat → Int
  | [], [] => 0
  | [], _ :: _ => -1
  | _ :: _, [] => 1
  | a :: as, b :: bs => if a < b then -1 else if b < a then 1 else bytesCompare as bs

/-- InternalCompare from the source.  An invalid key sorts before a valid one;
two invalid keys are compared byte-wise with bytes.Compare; two valid keys are
compared with the caller-supplied user-key comparator and, on equal user keys,
by trailer with the larger trailer first. -/
def InternalCompare (userCmp : List Nat → List Nat → Int) (a b : InternalKey) : Int :=
  if !a.Valid then
    if b.Valid then -1 else bytesCompare a.userKey b.userKey
  else if !b.Valid then 1
  else if userCmp a.userKey b.userKey ≠ 0 then userCmp a.userKey b.userKey
  else if a.trailer < b.trailer then 1
  else if a.trailer > b.trailer then -1
  else 0

/-! ## Compaction iterator

The compaction iterator (compactionIter in the source) wraps a merging input
iterator and collapses shadowed entries.  The model represents the input as a
list of records, newest first within each user key, and computes the complete
output stream of the iterator together with the latched-error flag.

User keys are modelled as naturals together with the canonical comparator
(cmp a b = 0 exactly when a = b); values are an arbitrary type V, and the
configured merge operator is a function mer : key -> newer -> older -> V,
mirroring db.Merge up to the scratch buffer argument. -/

/-- One input record of the compaction iterator: the fields of the internal
key (the trailer split into its sequence-number and kind components) together
with the value. -/
structure SRec (V : Type) where
  ukey : Nat
  seq : Nat
  kind : Nat
  val : V
deriving DecidableEq

/-- Effect of InternalIterator.NextUserKey on the modelled input: from a
position whose current record has user key k, advance past every consecutive
record with that same user key. -/
def dropSame {V : Type} (k : Nat) (l : List (SRec V)) : List (SRec V) :=
  l.dropWhile (fun r => r.ukey == k)

/-- Loop of compactionIter.mergeNext from the source.  The saved key has user
key k and sequence number sq (those of the first record of the merge chain)
and acc is the accumulated value.  The result is none when the loop latches an
invalid-kind error, and otherwise the emitted record, the skip flag, and the
rest of the input from the final position of the iterator.  A Delete ends the chain
with the accumulated Merge record; a Set ends it after a final merge, and the
emitted kind becomes Set (the source calls InternalKey.SetKind, whose body is
outside the given source; modelled from the spec: the emitted record for a
chain ended by a Set carries kind Set, i.e. only the kind component of the
trailer changes). -/
def mergeCollapse {V : Type} (mer : Nat → V → V → V) (k sq : Nat) (acc : V) :
    List (SRec V) → Option (SRec V × Bool × List (SRec V))
  | [] => some (⟨k, sq, InternalKeyKindMerge, acc⟩, false, [])
  | r :: rest =>
    if r.ukey ≠ k then some (⟨k, sq, InternalKeyKindMerge, acc⟩, false, r :: rest)
    else if r.kind = InternalKeyKindDelete then
      some (⟨k, sq, InternalKeyKindMerge, acc⟩, true, r :: rest)
    else if r.kind = InternalKeyKindSet then
      some (⟨k, sq, InternalKeyKindSet, mer k acc r.val⟩, true, r :: rest)
    else if r.kind = InternalKeyKindMerge then
      mergeCollapse mer k sq (mer k acc r.val) rest
    else none

/-- The remainder returned by mergeCollapse is no longer than its input; this
bound justifies the termination of the compaction driver below. -/
theorem mergeCollapse_length_le {V : Type} (mer : Nat → V → V → V) (k sq : Nat) :
    ∀ (l : List (SRec V)) (acc : V) (em : SRec V) (sk : Bool) (rem : List (SRec V)),
      mergeCollapse mer k sq acc l = some (em, sk, rem) → rem.length ≤ l.length := by
  intro l
  induction l with
  | nil =>
    intro acc em sk rem h
    simp only [mergeCollapse, Option.some.injEq, Prod.mk.injEq] at h
    simp [← h.2.2]
  | cons r rest ih =>
    intro acc em sk rem h
    simp only [mergeCollapse] at h
    split at h
    · simp only [Option.some.injEq, Prod.mk.injEq] at h
      simp [← h.2.2]
    · split at h
      · simp only [Option.some.injEq, Prod.mk.injEq] at h
        simp [← h.2.2]
      · split at h
        · simp only [Option.some.injEq, Prod.mk.injEq] at h
          simp [← h.2.2]
        · split at h
          · exact Nat.le_succ_of_le (ih _ _ _ _ h)
          · exact absurd h (by simp)

/-- Complete run of compactionIter from the source, collapsing the calls to
Next into the full output stream.  The first argument is the skip flag: when
it is set, the previous Next emitted a record and the next call first advances
past the remaining records of the current user key (iter.NextUserKey).  The
result is the list of records emitted by successive calls to Next, paired with
true exactly when the iterator stopped by latching an invalid-kind error
rather than by exhausting the input.  Each step mirrors the switch in Next:
Delete consults elideTombstone and either skips the user key or emits the
tombstone, Set emits, Merge runs mergeNext, and any other kind latches the
error. -/
def compactionNext {V : Type} (elide : Nat → Bool) (mer : Nat → V → V → V) :
    Bool → List (SRec V) → List (SRec V) × Bool
  | true, [] => ([], false)
  | true, r :: rest => compactionNext elide mer false (dropSame r.ukey (r :: rest))
  | false, [] => ([], false)
  | false, r :: rest =>
    if r.kind = InternalKeyKindDelete then
      if elide r.ukey then compactionNext elide mer false (dropSame r.ukey (r :: rest))
      else
        let p := compactionNext elide mer true (r :: rest)
        (r :: p.1, p.2)
    else if r.kind = InternalKeyKindSet then
      let p := compactionNext elide mer true (r :: rest)
      (r :: p.1, p.2)
    else if r.kind = InternalKeyKindMerge then
      match hm : mergeCollapse mer r.ukey r.seq r.val rest with
      | none => ([], true)
      | some (em, sk, rem) =>
        let p := compactionNext elide mer sk rem
        (em :: p.1, p.2)
    else ([], true)
termination_by b l => 2 * l.length + (1 - b.toNat)
decreasing_by
all_goals
  try
    have h1 : (dropSame r.ukey (r :: rest)).length ≤ rest.length := by
      rw [dropSame, List.dropWhile_cons_of_pos (by simp)]
      exact (List.dropWhile_sublist _).length_le
all_goals
  try
    have h2 : rem.length ≤ rest.length :=
      mergeCollapse_length_le mer r.ukey r.seq rest r.val em sk rem hm
all_goals try cases sk
all_goals simp only [List.length_cons, Bool.toNat_true, Bool.toNat_false]
all_goals omega

/-! ## Spec-modelled auxiliaries -/

/-- Modelled from the spec: snapshot stripes.  The given source of
compactionIter does not implement snapshots (its own comment marks them
unimplemented), so the stripe structure exists only in the specification:
given active snapshot sequence numbers s1 < s2 < ... < sk, the stripes are
(-inf, s1], (s1, s2], ..., (sk, inf), and the oldest stripe is the one
extending to minus infinity.  A sequence number lies in the oldest stripe
exactly when it is at most every active snapshot sequence number. -/
def inOldestStripe (snapshots : List Nat) (seq : Nat) : Bool :=
  snapshots.all (fun s => seq ≤ s)

/-- Modelled from the spec: numLevels is referenced by metrics.go but defined
elsewhere in the repository.  The report format in the spec shows per-level
rows for levels 0 through 6, so the LSM has seven levels. -/
def numLevels : Nat := 7

/-! ## Metrics (metrics.go)

Only the parts of the Metrics struct that the per-level counters and the
totals row depend on are modelled: the per-level metrics array and the WAL
byte counters.  Counter fields declared uint64 in the source are Nats added
modulo 2^64; fields declared int64 (int32) are Ints added with the
twos-complement wrap of Go arithmetic; the float64 score is carried
unchanged. -/

/-- Result of Go int64 addition: wrap into [-2^63, 2^63). -/
def wrap64 (x : Int) : Int := (x + 2 ^ 63) % 2 ^ 64 - 2 ^ 63

/-- Result of Go int32 addition: wrap into [-2^31, 2^31). -/
def wrap32 (x : Int) : Int := (x + 2 ^ 31) % 2 ^ 32 - 2 ^ 31

/-- Result of Go uint64 addition. -/
def uadd64 (a b : Nat) : Nat := (a + b) % 2 ^ 64

/-- The Additional sub-struct of LevelMetrics. -/
structure LevelMetricsAdditional where
  ValueBlocksSize : Nat
  BytesWrittenDataBlocks : Nat
  BytesWrittenValueBlocks : Nat
deriving DecidableEq

/-- LevelMetrics from the source, field for field: Sublevels is int32,
NumFiles and Size are int64, Score is float64, and the remaining counters are
uint64. -/
structure LevelMetrics where
  Sublevels : Int
  NumFiles : Int
  Size : Int
  Score : Float
  BytesIn : Nat
  BytesIngested : Nat
  BytesMoved : Nat
  BytesRead : Nat
  BytesCompacted : Nat
  BytesFlushed : Nat
  TablesCompacted : Nat
  TablesFlushed : Nat
  TablesIngested : Nat
  TablesMoved : Nat
  Additional : LevelMetricsAdditional

/-- LevelMetrics.Add from the source: sum the counter fields field-wise into
the receiver, leaving Sublevels and Score untouched. -/
def LevelMetrics.Add (m u : LevelMetrics) : LevelMetrics :=
  { m with
    NumFiles := wrap64 (m.NumFiles + u.NumFiles)
    Size := wrap64 (m.Size + u.Size)
    BytesIn := uadd64 m.BytesIn u.BytesIn
    BytesIngested := uadd64 m.BytesIngested u.BytesIngested
    BytesMoved := uadd64 m.BytesMoved u.BytesMoved
    BytesRead := uadd64 m.BytesRead u.BytesRead
    BytesCompacted := uadd64 m.BytesCompacted u.BytesCompacted
    BytesFlushed := uadd64 m.BytesFlushed u.BytesFlushed
    TablesCompacted := uadd64 m.TablesCompacted u.TablesCompacted
    TablesFlushed := uadd64 m.TablesFlushed u.TablesFlushed
    TablesIngested := uadd64 m.TablesIngested u.TablesIngested
    TablesMoved := uadd64 m.TablesMoved u.TablesMoved
    Additional :=
      { BytesWrittenDataBlocks :=
          uadd64 m.Additional.BytesWrittenDataBlocks u.Additional.BytesWrittenDataBlocks
        BytesWrittenValueBlocks :=
          uadd64 m.Additional.BytesWrittenValueBlocks u.Additional.BytesWrittenValueBlocks
        ValueBlocksSize :=
          uadd64 m.Additional.ValueBlocksSize u.Additional.ValueBlocksSize } }

/-- Zero value of LevelMetrics (Go: var total LevelMetrics). -/
def LevelMetrics.zero : LevelMetrics :=
  ⟨0, 0, 0, 0, 0, 0, 0, 0, 0, 0, 0, 0, 0, 0, ⟨0, 0, 0⟩⟩

/-- WAL sub-struct of Metrics, restricted to the fields the modelled
operations read. -/
structure WALMetrics where
  BytesIn : Nat
  BytesWritten : Nat

/-- Metrics from the source, restricted to the per-level metrics and the WAL
counters that Total reads; the per-level array of length numLevels is
modelled as a list. -/
structure Metrics where
  Levels : List LevelMetrics
  WAL : WALMetrics

/-- One iteration of the loop in Metrics.Total: total.Add(l) followed by
total.Sublevels += l.Sublevels (an int32 addition). -/
def totalStep (t l : LevelMetrics) : LevelMetrics :=
  { t.Add l with Sublevels := wrap32 (t.Sublevels + l.Sublevels) }

/-- Metrics.Total from the source: fold the per-level metrics together, then
override BytesIn with WAL.BytesWritten + total BytesIngested, and add that
BytesIn into BytesFlushed. -/
def Metrics.Total (m : Metrics) : LevelMetrics :=
  let total := m.Levels.foldl totalStep LevelMetrics.zero
  let total := { total with BytesIn := uadd64 m.WAL.BytesWritten total.BytesIngested }
  { total with BytesFlushed := uadd64 total.BytesFlushed total.BytesIn }

/-- The concrete metrics of spec scenario E6: WAL.BytesWritten = 100, one
level with BytesIngested = 40, BytesFlushed = 50 on L0, and 200 bytes
compacted, spread over the seven levels. -/
def metricsE6 : Metrics :=
  { Levels :=
      [{ LevelMetrics.zero with BytesFlushed := 50, BytesIngested := 40 },
       LevelMetrics.zero, LevelMetrics.zero, LevelMetrics.zero,
       LevelMetrics.zero, LevelMetrics.zero,
       { LevelMetrics.zero with BytesCompacted := 200 }]
    WAL := { BytesIn := 90, BytesWritten := 100 } }

/-! ## Supporting lemmas -/

/-- Disjoint bitwise or is addition: a multiple of 256 or-ed with a byte. -/
theorem lor_of_low (m kd : Nat) (hk : kd < 256) : (2 ^ 8 * m) ||| kd = 2 ^ 8 * m + kd := by
  apply Nat.eq_of_testBit_eq
  intro j
  have h8 : kd < 2 ^ 8 := by omega
  rw [Nat.testBit_or, Nat.testBit_mul_pow_two_add _ h8 j]
  have hmb : (2 ^ 8 * m).testBit j = if j < 8 then false else m.testBit (j - 8) := by
    have h := Nat.testBit_mul_pow_two_add m (show (0 : Nat) < 2 ^ 8 by omega) j
    simpa using h
  rw [hmb]
  by_cases hj : j < 8
  · simp [hj]
  · have hkj : kd.testBit j = false :=
      Nat.testBit_lt_two_pow (lt_of_lt_of_le h8 (Nat.pow_le_pow_right (by omega) (by omega)))
    simp [hj, hkj]

/-- The trailer built by MakeInternalKey, in plain arithmetic: the shift
truncates the sequence number to 56 bits and the or packs the kind into the
low byte. -/
theorem make_trailer (s kd : Nat) (hk : kd < 256) :
    ((s <<< 8) % 2 ^ 64) ||| kd = 2 ^ 8 * (s % 2 ^ 56) + kd := by
  have h1 : (s <<< 8) % 2 ^ 64 = 2 ^ 8 * (s % 2 ^ 56) := by
    rw [Nat.shiftLeft_eq]
    omega
  rw [h1, lor_of_low _ _ hk]

/-- Reading back the eight little-endian bytes of a 64-bit value recovers it. -/
theorem leUint64_putUint64LE (t : Nat) (h : t < 2 ^ 64) : leUint64 (putUint64LE t) = t := by
  simp only [putUint64LE, leUint64, List.getD_cons_zero, List.getD_cons_succ]
  omega

/-! ## Claims -/

/-- C5, corrected.  The source compares two invalid internal keys with the
built-in byte-wise bytes.Compare, not with the caller-supplied comparator:
with the flipped comparator, InternalCompare on the invalid keys [1] and [2]
returns -1 (byte-wise order) although the supplied comparator orders them the
other way. -/
theorem claim_c5_counterexample :
    (InternalKey.Valid ⟨[1], 255⟩ = false) ∧ (InternalKey.Valid ⟨[2], 255⟩ = false) ∧
    InternalCompare (fun x y => bytesCompare y x) ⟨[1], 255⟩ ⟨[2], 255⟩ = -1 ∧
    (fun x y => bytesCompare y x) [1] [2] = 1 := by
  refine ⟨by decide, by decide, by decide, by decide⟩

/-- C5 as amended: when both internal keys are invalid, InternalCompare
compares the two user keys byte-wise with bytes.Compare, ignoring the
caller-supplied comparator. -/
theorem claim_c5 (userCmp : List Nat → List Nat → Int) (a b : InternalKey)
    (ha : a.Valid = false) (hb : b.Valid = false) :
    InternalCompare userCmp a b = bytesCompare a.userKey b.userKey := by
  unfold InternalCompare
  rw [ha, hb]
  simp

/-- Witness for C5 at the concrete invalid keys of the counterexample. -/
theorem claim_c5_witness :
    InternalCompare (fun x y => bytesCompare y x) ⟨[1], 255⟩ ⟨[2], 255⟩ =
      bytesCompare [1] [2] :=
  claim_c5 (fun x y => bytesCompare y x) ⟨[1], 255⟩ ⟨[2], 255⟩ (by decide) (by decide)

/-- C6, confirmed.  Decoding the encoding of an internal key whose sequence
number fits in 56 bits returns the identical key: same user key, same
sequence number, same kind. -/
theorem claim_c6 (k : InternalKey) (h : k.SeqNum < 2 ^ 56) :
    DecodeInternalKey k.Encode = k := by
  have ht : k.trailer < 2 ^ 64 := by
    rw [InternalKey.SeqNum, Nat.shiftRight_eq_div_pow] at h
    omega
  have hlen : (InternalKey.Encode k).length = k.userKey.length + 8 := by
    simp [InternalKey.Encode, putUint64LE]
  rw [DecodeInternalKey, if_neg (by omega)]
  have h8 : (InternalKey.Encode k).length - 8 = k.userKey.length := by omega
  rw [h8, InternalKey.Encode, List.take_left' rfl, List.drop_left' rfl,
    leUint64_putUint64LE k.trailer ht]

/-- Witness for C6 at a concrete two-byte key. -/
theorem claim_c6_witness :
    (InternalKey.SeqNum ⟨[7, 8], 513⟩ < 2 ^ 56) ∧
    DecodeInternalKey (InternalKey.Encode ⟨[7, 8], 513⟩) = ⟨[7, 8], 513⟩ :=
  ⟨by decide, claim_c6 ⟨[7, 8], 513⟩ (by decide)⟩

/-- C8, confirmed.  MakeInternalKey stores the kind in the low byte of the
trailer and the sequence number truncated to its low 56 bits in the high
bits: Kind returns the kind and SeqNum returns seqNum mod 2^56, so a
sequence number at or above 2^56 is silently truncated, not rejected. -/
theorem claim_c8 (u : List Nat) (s kd : Nat) (hs : s < 2 ^ 64) (hk : kd < 256) :
    (MakeInternalKey u s kd).Kind = kd ∧ (MakeInternalKey u s kd).SeqNum = s % 2 ^ 56 := by
  constructor
  · show (((s <<< 8) % 2 ^ 64) ||| kd) &&& 255 = kd
    rw [make_trailer s kd hk, show (255 : Nat) = 2 ^ 8 - 1 by norm_num,
      Nat.and_pow_two_sub_one_eq_mod]
    omega
  · show (((s <<< 8) % 2 ^ 64) ||| kd) >>> 8 = s % 2 ^ 56
    rw [make_trailer s kd hk, Nat.shiftRight_eq_div_pow]
    omega

/-- Witness for C8: a sequence number above 2^56 is truncated to its low 56
bits while the kind byte is preserved. -/
theorem claim_c8_witness :
    (2 ^ 56 + 5 < 2 ^ 64) ∧ (1 < 256) ∧
    (MakeInternalKey [] (2 ^ 56 + 5) 1).Kind = 1 ∧
    (MakeInternalKey [] (2 ^ 56 + 5) 1).SeqNum = 5 := by
  have h := claim_c8 [] (2 ^ 56 + 5) 1 (by norm_num) (by norm_num)
  exact ⟨by norm_num, by norm_num, h.1, h.2.trans (by norm_num)⟩

/-- C10, confirmed.  LevelMetrics.Add sums every counter field field-wise
(with the wrap of the Go integer type of the field) and leaves Sublevels and
Score unchanged. -/
theorem claim_c10 (m u : LevelMetrics) :
    (m.Add u).Sublevels = m.Sublevels ∧
    (m.Add u).Score = m.Score ∧
    (m.Add u).NumFiles = wrap64 (m.NumFiles + u.NumFiles) ∧
    (m.Add u).Size = wrap64 (m.Size + u.Size) ∧
    (m.Add u).BytesIn = uadd64 m.BytesIn u.BytesIn ∧
    (m.Add u).BytesIngested = uadd64 m.BytesIngested u.BytesIngested ∧
    (m.Add u).BytesMoved = uadd64 m.BytesMoved u.BytesMoved ∧
    (m.Add u).BytesRead = uadd64 m.BytesRead u.BytesRead ∧
    (m.Add u).BytesCompacted = uadd64 m.BytesCompacted u.BytesCompacted ∧
    (m.Add u).BytesFlushed = uadd64 m.BytesFlushed u.BytesFlushed ∧
    (m.Add u).TablesCompacted = uadd64 m.TablesCompacted u.TablesCompacted ∧
    (m.Add u).TablesFlushed = uadd64 m.TablesFlushed u.TablesFlushed ∧
    (m.Add u).TablesIngested = uadd64 m.TablesIngested u.TablesIngested ∧
    (m.Add u).TablesMoved = uadd64 m.TablesMoved u.TablesMoved ∧
    (m.Add u).Additional.BytesWrittenDataBlocks =
      uadd64 m.Additional.BytesWrittenDataBlocks u.Additional.BytesWrittenDataBlocks ∧
    (m.Add u).Additional.BytesWrittenValueBlocks =
      uadd64 m.Additional.BytesWrittenValueBlocks u.Additional.BytesWrittenValueBlocks ∧
    (m.Add u).Additional.ValueBlocksSize =
      uadd64 m.Additional.ValueBlocksSize u.Additional.ValueBlocksSize :=
  ⟨rfl, rfl, rfl, rfl, rfl, rfl, rfl, rfl, rfl, rfl, rfl, rfl, rfl, rfl, rfl, rfl, rfl⟩

/-- Projections of the totals fold distribute over the per-level list: any
field read off the fold of totalStep is the corresponding fold of the
field values, provided totalStep acts on that field by the given operation. -/
theorem foldl_totalStep_proj {β : Type} (g : LevelMetrics → β) (op : β → β → β)
    (hg : ∀ t l, g (totalStep t l) = op (g t) (g l)) :
    ∀ (ls : List LevelMetrics) (z : LevelMetrics),
      g (ls.foldl totalStep z) = ls.foldl (fun a l => op a (g l)) (g z) := by
  intro ls
  induction ls with
  | nil => intro z; rfl
  | cons x xs ih =>
    intro z
    simp only [List.foldl_cons]
    rw [ih, hg]

/-- C7, confirmed.  Metrics.Total is the field-wise sum of the per-level
metrics, except that BytesIn is overridden to WAL.BytesWritten plus the
summed per-level BytesIngested and BytesFlushed then has that overridden
BytesIn added to it; on the concrete E6 metrics this gives BytesIn = 140 and
BytesFlushed = 190. -/
theorem claim_c7 :
    (∀ m : Metrics,
      m.Total.BytesIn =
        uadd64 m.WAL.BytesWritten (m.Levels.foldl (fun a l => uadd64 a l.BytesIngested) 0) ∧
      m.Total.BytesFlushed =
        uadd64 (m.Levels.foldl (fun a l => uadd64 a l.BytesFlushed) 0) m.Total.BytesIn ∧
      m.Total.BytesIngested = m.Levels.foldl (fun a l => uadd64 a l.BytesIngested) 0 ∧
      m.Total.NumFiles = m.Levels.foldl (fun a l => wrap64 (a + l.NumFiles)) 0 ∧
      m.Total.Size = m.Levels.foldl (fun a l => wrap64 (a + l.Size)) 0 ∧
      m.Total.Sublevels = m.Levels.foldl (fun a l => wrap32 (a + l.Sublevels)) 0 ∧
      m.Total.BytesMoved = m.Levels.foldl (fun a l => uadd64 a l.BytesMoved) 0 ∧
      m.Total.BytesRead = m.Levels.foldl (fun a l => uadd64 a l.BytesRead) 0 ∧
      m.Total.BytesCompacted = m.Levels.foldl (fun a l => uadd64 a l.BytesCompacted) 0 ∧
      m.Total.TablesCompacted = m.Levels.foldl (fun a l => uadd64 a l.TablesCompacted) 0 ∧
      m.Total.TablesFlushed = m.Levels.foldl (fun a l => uadd64 a l.TablesFlushed) 0 ∧
      m.Total.TablesIngested = m.Levels.foldl (fun a l => uadd64 a l.TablesIngested) 0 ∧
      m.Total.TablesMoved = m.Levels.foldl (fun a l => uadd64 a l.TablesMoved) 0) ∧
    metricsE6.Total.BytesIn = 140 ∧ metricsE6.Total.BytesFlushed = 190 := by
  constructor
  · intro m
    refine ⟨?_, ?_, ?_, ?_, ?_, ?_, ?_, ?_, ?_, ?_, ?_, ?_, ?_⟩ <;> simp only [Metrics.Total]
    · rw [foldl_totalStep_proj (fun l => l.BytesIngested) uadd64 (fun _ _ => rfl) m.Levels]
      rfl
    · rw [foldl_totalStep_proj (fun l => l.BytesFlushed) uadd64 (fun _ _ => rfl) m.Levels]
      rfl
    · rw [foldl_totalStep_proj (fun l => l.BytesIngested) uadd64 (fun _ _ => rfl) m.Levels]
      rfl
    · rw [foldl_totalStep_proj (fun l => l.NumFiles) (fun a b => wrap64 (a + b))
        (fun _ _ => rfl) m.Levels]
      rfl
    · rw [foldl_totalStep_proj (fun l => l.Size) (fun a b => wrap64 (a + b))
        (fun _ _ => rfl) m.Levels]
      rfl
    · rw [foldl_totalStep_proj (fun l => l.Sublevels) (fun a b => wrap32 (a + b))
        (fun _ _ => rfl) m.Levels]
      rfl
    · rw [foldl_totalStep_proj (fun l => l.BytesMoved) uadd64 (fun _ _ => rfl) m.Levels]
      rfl
    · rw [foldl_totalStep_proj (fun l => l.BytesRead) uadd64 (fun _ _ => rfl) m.Levels]
      rfl
    · rw [foldl_totalStep_proj (fun l => l.BytesCompacted) uadd64 (fun _ _ => rfl) m.Levels]
      rfl
    · rw [foldl_totalStep_proj (fun l => l.TablesCompacted) uadd64 (fun _ _ => rfl) m.Levels]
      rfl
    · rw [foldl_totalStep_proj (fun l => l.TablesFlushed) uadd64 (fun _ _ => rfl) m.Levels]
      rfl
    · rw [foldl_totalStep_proj (fun l => l.TablesIngested) uadd64 (fun _ _ => rfl) m.Levels]
      rfl
    · rw [foldl_totalStep_proj (fun l => l.TablesMoved) uadd64 (fun _ _ => rfl) m.Levels]
      rfl
  · exact ⟨by decide, by decide⟩

/-- C1, corrected.  The claim requires a Delete to be emitted whenever its
stripe is not the oldest one, but the source ignores the snapshot list
entirely: with snapshots = [6] and elideTombstone constantly true, the sole
Delete record at sequence number 8 is omitted from the output although
sequence number 8 does not lie in the oldest stripe, so the claimed
equivalence fails. -/
theorem claim_c1_counterexample :
    ¬ (((compactionNext (fun _ => true) (fun _ (a : Nat) _ => a) false
          [⟨0, 8, InternalKeyKindDelete, 0⟩]).1 = []) ↔
        (inOldestStripe [6] 8 = true ∧ (fun _ : Nat => true) 0 = true)) := by
  have h1 : (compactionNext (fun _ => true) (fun _ (a : Nat) _ => a) false
      [⟨0, 8, InternalKeyKindDelete, 0⟩]).1 = [] := by
    simp [compactionNext, dropSame, InternalKeyKindDelete]
  have h2 : inOldestStripe [6] 8 = false := by decide
  intro h
  have := h.mp h1
  rw [h2] at this
  exact absurd this.1 (by decide)

/-- C1 as amended: the source has no snapshot list, so every record is
treated as lying in the single oldest stripe.  When the iterator encounters a
Delete record it omits it exactly when elideTombstone holds for its user key,
and in either case it continues after skipping every remaining record of that
user key. -/
theorem claim_c1 {V : Type} (elide : Nat → Bool) (mer : Nat → V → V → V)
    (r : SRec V) (rest : List (SRec V)) (h : r.kind = InternalKeyKindDelete) :
    compactionNext elide mer false (r :: rest) =
      ((if elide r.ukey then [] else [r]) ++
        (compactionNext elide mer false (dropSame r.ukey (r :: rest))).1,
       (compactionNext elide mer false (dropSame r.ukey (r :: rest))).2) := by
  by_cases he : elide r.ukey
  · simp [compactionNext, h, he, InternalKeyKindDelete]
  · simp [compactionNext, h, he, InternalKeyKindDelete]

/-- Witness for C1 at scenario E3: a retained tombstone shadowing a Set. -/
theorem claim_c1_witness :
    (⟨0, 2, 0, (9 : Nat)⟩ : SRec Nat).kind = InternalKeyKindDelete ∧
    compactionNext (fun _ => false) (fun _ (a : Nat) _ => a) false
        [⟨0, 2, 0, 9⟩, ⟨0, 1, 1, 5⟩] =
      ((if (fun _ : Nat => false) 0 then [] else [⟨0, 2, 0, 9⟩]) ++
        (compactionNext (fun _ => false) (fun _ (a : Nat) _ => a) false
          (dropSame 0 [⟨0, 2, 0, 9⟩, ⟨0, 1, 1, 5⟩])).1,
       (compactionNext (fun _ => false) (fun _ (a : Nat) _ => a) false
          (dropSame 0 [⟨0, 2, 0, 9⟩, ⟨0, 1, 1, 5⟩])).2) :=
  ⟨rfl, claim_c1 (fun _ => false) (fun _ (a : Nat) _ => a) ⟨0, 2, 0, 9⟩ [⟨0, 1, 1, 5⟩] rfl⟩

/-- C2, corrected.  The claim says a LogData record is skipped without error,
but kind 3 falls into the default case of the switch in Next: on the input
holding a LogData record followed by a Set for another user key, the iterator
latches the invalid-kind error and emits nothing, instead of skipping the
marker and emitting the Set. -/
theorem claim_c2_counterexample :
    compactionNext (fun _ => false) (fun _ (a : Nat) _ => a) false
      [⟨0, 5, InternalKeyKindLogData, 0⟩, ⟨1, 4, InternalKeyKindSet, 7⟩] = ([], true) := by
  simp [compactionNext, InternalKeyKindLogData, InternalKeyKindDelete, InternalKeyKindSet,
    InternalKeyKindMerge]

/-- C2 as amended: a LogData record is not skipped; when the iterator
encounters one it latches the invalid-kind error, stops, and emits nothing
further. -/
theorem claim_c2 {V : Type} (elide : Nat → Bool) (mer : Nat → V → V → V)
    (r : SRec V) (rest : List (SRec V)) (h : r.kind = InternalKeyKindLogData) :
    compactionNext elide mer false (r :: rest) = ([], true) := by
  simp [compactionNext, h, InternalKeyKindLogData, InternalKeyKindDelete, InternalKeyKindSet,
    InternalKeyKindMerge]

/-- Witness for C2 at a single LogData record. -/
theorem claim_c2_witness :
    (⟨0, 5, 3, (0 : Nat)⟩ : SRec Nat).kind = InternalKeyKindLogData ∧
    compactionNext (fun _ => false) (fun _ (a : Nat) _ => a) false
      [⟨0, 5, 3, 0⟩] = ([], true) :=
  ⟨rfl, claim_c2 (fun _ => false) (fun _ (a : Nat) _ => a) ⟨0, 5, 3, 0⟩ [] rfl⟩

/-- C9, confirmed.  A kind byte that is unassigned in this implementation
(4 through 14, or 16) still satisfies InternalKey.Valid, because Valid only
compares against InternalKeyKindMax = 17; yet the compaction iterator, which
accepts only Delete, Set and Merge, latches the invalid-kind error and stops
when it encounters a record of such a kind. -/
theorem claim_c9 (v : Nat) (hv : (4 ≤ v ∧ v ≤ 14) ∨ v = 16) :
    (∀ (u : List Nat) (s : Nat), (MakeInternalKey u s v).Valid = true) ∧
    (∀ {V : Type} (elide : Nat → Bool) (mer : Nat → V → V → V) (r : SRec V)
        (rest : List (SRec V)), r.kind = v →
      compactionNext elide mer false (r :: rest) = ([], true)) := by
  have hv256 : v < 256 := by omega
  constructor
  · intro u s
    show decide ((((s <<< 8) % 2 ^ 64) ||| v) &&& 255 ≤ InternalKeyKindMax) = true
    rw [make_trailer s v hv256, show (255 : Nat) = 2 ^ 8 - 1 by norm_num,
      Nat.and_pow_two_sub_one_eq_mod, decide_eq_true_iff]
    show (2 ^ 8 * (s % 2 ^ 56) + v) % 2 ^ 8 ≤ 17
    omega
  · intro V elide mer r rest h
    have h0 : r.kind ≠ InternalKeyKindDelete := by rw [h, InternalKeyKindDelete]; omega
    have h1 : r.kind ≠ InternalKeyKindSet := by rw [h, InternalKeyKindSet]; omega
    have h2 : r.kind ≠ InternalKeyKindMerge := by rw [h, InternalKeyKindMerge]; omega
    simp [compactionNext, h0, h1, h2]

/-- Witness for C9 at the unassigned kind 7. -/
theorem claim_c9_witness :
    ((4 ≤ 7 ∧ 7 ≤ 14) ∨ 7 = 16) ∧
    (MakeInternalKey [] 0 7).Valid = true ∧
    compactionNext (fun _ => true) (fun _ (a : Nat) _ => a) false
      [⟨0, 1, 7, 0⟩] = ([], true) :=
  ⟨Or.inl ⟨by omega, by omega⟩,
   (claim_c9 7 (Or.inl ⟨by omega, by omega⟩)).1 [] 0,
   (claim_c9 7 (Or.inl ⟨by omega, by omega⟩)).2 _ _ ⟨0, 1, 7, 0⟩ [] rfl⟩

/-- C3, corrected.  The claim exempts batch-tagged records (bit 55 of the
sequence number) from elision, but the source never inspects sequence
numbers: a lone Delete record with a batch-tagged sequence number is elided
whenever elideTombstone holds, so it is not emitted. -/
theorem claim_c3_counterexample :
    Nat.testBit (2 ^ 55 + 5) 55 = true ∧
    compactionNext (fun _ => true) (fun _ (a : Nat) _ => a) false
      [⟨0, 2 ^ 55 + 5, InternalKeyKindDelete, 0⟩] = ([], false) := by
  constructor
  · decide
  · simp [compactionNext, dropSame, InternalKeyKindDelete]

/-- Advancing past a user key commutes with any renaming of the sequence
numbers, because dropSame only reads user keys. -/
theorem dropSame_map_reseq {V : Type} (f : Nat → Nat) (k : Nat) (l : List (SRec V)) :
    dropSame k (l.map (fun r => ⟨r.ukey, f r.seq, r.kind, r.val⟩)) =
      (dropSame k l).map (fun r => ⟨r.ukey, f r.seq, r.kind, r.val⟩) := by
  unfold dropSame
  rw [List.dropWhile_map]
  rfl

/-- Dropping a user key ignores the head record when the head already carries
that user key. -/
theorem dropSame_cons_of_eq {V : Type} (k : Nat) (x : SRec V) (l : List (SRec V))
    (h : x.ukey = k) : dropSame k (x :: l) = dropSame k l := by
  unfold dropSame
  rw [List.dropWhile_cons_of_pos (by simp [h])]

/-- The merge loop commutes with any renaming of the sequence numbers: it
reads only user keys, kinds and values, and stamps the emitted record with
the saved sequence number. -/
theorem mergeCollapse_map_reseq {V : Type} (mer : Nat → V → V → V) (f : Nat → Nat)
    (k sq : Nat) :
    ∀ (l : List (SRec V)) (acc : V),
      mergeCollapse mer k (f sq) acc (l.map (fun r => ⟨r.ukey, f r.seq, r.kind, r.val⟩)) =
        (mergeCollapse mer k sq acc l).map
          (fun t => (⟨t.1.ukey, f t.1.seq, t.1.kind, t.1.val⟩, t.2.1,
            t.2.2.map (fun r => ⟨r.ukey, f r.seq, r.kind, r.val⟩))) := by
  intro l
  induction l with
  | nil => intro acc; rfl
  | cons r rest ih =>
    intro acc
    by_cases h1 : r.ukey = k
    · by_cases h2 : r.kind = InternalKeyKindDelete
      · simp [mergeCollapse, h1, h2, InternalKeyKindDelete, InternalKeyKindSet,
          InternalKeyKindMerge]
      · by_cases h3 : r.kind = InternalKeyKindSet
        · simp [mergeCollapse, h1, h2, h3, InternalKeyKindDelete, InternalKeyKindSet,
            InternalKeyKindMerge]
        · by_cases h4 : r.kind = InternalKeyKindMerge
          · simp [mergeCollapse, h1, h2, h3, h4, ih, InternalKeyKindDelete,
              InternalKeyKindSet, InternalKeyKindMerge]
          · simp [mergeCollapse, h1, h2, h3, h4, ih]
    · simp [mergeCollapse, h1]

/-- C3 as amended: the compaction iterator gives batch-tagged sequence
numbers no special treatment, because its behaviour is independent of
sequence numbers altogether: renaming every sequence number of the input
by an arbitrary function commutes with the iterator, which merely stamps each
emitted record with the untouched sequence number of the input record it
descends from.  In particular records with bit 55 set are collapsed, shadowed
and elided exactly like any other record of their kind. -/
theorem claim_c3 {V : Type} (elide : Nat → Bool) (mer : Nat → V → V → V)
    (f : Nat → Nat) (b : Bool) (l : List (SRec V)) :
    compactionNext elide mer b (l.map (fun r => ⟨r.ukey, f r.seq, r.kind, r.val⟩)) =
      ((compactionNext elide mer b l).1.map (fun r => ⟨r.ukey, f r.seq, r.kind, r.val⟩),
       (compactionNext elide mer b l).2) := by
  induction b, l using compactionNext.induct elide mer with
  | case1 => simp [compactionNext]
  | case2 r rest ih =>
    rw [dropSame_cons_of_eq r.ukey r rest rfl] at ih
    simp only [List.map_cons, compactionNext]
    rw [dropSame_cons_of_eq r.ukey (⟨r.ukey, f r.seq, r.kind, r.val⟩ : SRec V)
        (List.map (fun r => (⟨r.ukey, f r.seq, r.kind, r.val⟩ : SRec V)) rest) rfl,
      dropSame_map_reseq f r.ukey rest, dropSame_cons_of_eq r.ukey r rest rfl]
    exact ih
  | case3 => simp [compactionNext]
  | case4 r rest hk he ih =>
    rw [dropSame_cons_of_eq r.ukey r rest rfl] at ih
    simp only [List.map_cons, compactionNext]
    rw [if_pos hk, if_pos hk, if_pos he, if_pos he,
      dropSame_cons_of_eq r.ukey (⟨r.ukey, f r.seq, r.kind, r.val⟩ : SRec V)
        (List.map (fun r => (⟨r.ukey, f r.seq, r.kind, r.val⟩ : SRec V)) rest) rfl,
      dropSame_map_reseq f r.ukey rest, dropSame_cons_of_eq r.ukey r rest rfl]
    exact ih
  | case5 r rest hk he ih =>
    simp only [List.map_cons, compactionNext] at ih
    simp only [List.map_cons, compactionNext]
    rw [if_pos hk, if_pos hk, if_neg he, if_neg he, ih]
    simp
  | case6 r rest hk hs ih =>
    simp only [List.map_cons, compactionNext] at ih
    simp only [List.map_cons, compactionNext]
    rw [if_neg hk, if_neg hk, if_pos hs, if_pos hs, ih]
    simp
  | case7 r rest hk hs hmk hm =>
    simp only [List.map_cons, compactionNext]
    rw [if_neg hk, if_neg hk, if_neg hs, if_neg hs, if_pos hmk, if_pos hmk,
      mergeCollapse_map_reseq mer f r.ukey r.seq rest r.val, hm]
    rfl
  | case8 r rest hk hs hmk em sk rem hm ih =>
    simp only [List.map_cons, compactionNext]
    rw [if_neg hk, if_neg hk, if_neg hs, if_neg hs, if_pos hmk, if_pos hmk,
      mergeCollapse_map_reseq mer f r.ukey r.seq rest r.val, hm]
    simp [ih]
  | case9 r rest hk hs hmk =>
    simp [compactionNext, hk, hs, hmk]

/-- Running the merge loop over a chain of Merge records for the saved user
key that is ended by a Set record for the same key emits a single record of
kind Set carrying the saved sequence number and the final merge with the Set
value, leaves the iterator on the Set record, and keeps the skip flag. -/
theorem mergeCollapse_chain {V : Type} (mer : Nat → V → V → V) (k sq : Nat) :
    ∀ (ms : List (SRec V)) (v0 : V) (s : SRec V) (rest : List (SRec V)),
      (∀ r ∈ ms, r.ukey = k ∧ r.kind = InternalKeyKindMerge) →
      s.ukey = k → s.kind = InternalKeyKindSet →
      mergeCollapse mer k sq v0 (ms ++ s :: rest) =
        some (⟨k, sq, InternalKeyKindSet,
            mer k (ms.foldl (fun a r => mer k a r.val) v0) s.val⟩,
          true, s :: rest) := by
  intro ms
  induction ms with
  | nil =>
    intro v0 s rest _ hsu hsk
    simp [mergeCollapse, hsu, hsk, InternalKeyKindDelete, InternalKeyKindSet]
  | cons m ms ih =>
    intro v0 s rest hms hsu hsk
    have hm := hms m (List.mem_cons_self m ms)
    have h1 : ¬(m.ukey ≠ k) := by simp [hm.1]
    have h2 : ¬(m.kind = InternalKeyKindDelete) := by
      rw [hm.2]; simp [InternalKeyKindMerge, InternalKeyKindDelete]
    have h3 : ¬(m.kind = InternalKeyKindSet) := by
      rw [hm.2]; simp [InternalKeyKindMerge, InternalKeyKindSet]
    rw [List.cons_append]
    simp only [mergeCollapse]
    rw [if_neg h1, if_neg h2, if_neg h3, if_pos hm.2,
      ih (mer k v0 m.val) s rest (fun r hr => hms r (List.mem_cons_of_mem m hr)) hsu hsk,
      List.foldl_cons]

/-- Shape of a record emitted by the merge loop: it carries the saved user
key and sequence number, its kind is Set or Merge, and the remaining input it
reports is drawn from the records the loop was given. -/
theorem mergeCollapse_emitted {V : Type} (mer : Nat → V → V → V) (k sq : Nat) :
    ∀ (l : List (SRec V)) (acc : V) (em : SRec V) (sk : Bool) (rem : List (SRec V)),
      mergeCollapse mer k sq acc l = some (em, sk, rem) →
      em.ukey = k ∧ em.seq = sq ∧
      (em.kind = InternalKeyKindSet ∨ em.kind = InternalKeyKindMerge) ∧
      (∀ x ∈ rem, x ∈ l) := by
  intro l
  induction l with
  | nil =>
    intro acc em sk rem h
    simp only [mergeCollapse, Option.some.injEq, Prod.mk.injEq] at h
    obtain ⟨he, _, hr⟩ := h
    subst he hr
    simp
  | cons r rest ih =>
    intro acc em sk rem h
    simp only [mergeCollapse] at h
    split at h
    · simp only [Option.some.injEq, Prod.mk.injEq] at h
      obtain ⟨he, _, hr⟩ := h
      subst he hr
      simp
    · split at h
      · simp only [Option.some.injEq, Prod.mk.injEq] at h
        obtain ⟨he, _, hr⟩ := h
        subst he hr
        simp
      · split at h
        · simp only [Option.some.injEq, Prod.mk.injEq] at h
          obtain ⟨he, _, hr⟩ := h
          subst he hr
          simp
        · split at h
          · obtain ⟨h1, h2, h3, h4⟩ := ih _ _ _ _ h
            exact ⟨h1, h2, h3, fun x hx => List.mem_cons_of_mem r (h4 x hx)⟩
          · exact absurd h (by simp)

/-- One step of the driver when the skip flag is set: advance past the
current user key and continue with the flag cleared. -/
theorem compactionNext_skip_step {V : Type} (elide : Nat → Bool) (mer : Nat → V → V → V)
    (r : SRec V) (rest : List (SRec V)) :
    compactionNext elide mer true (r :: rest) =
      compactionNext elide mer false (dropSame r.ukey (r :: rest)) := by
  simp only [compactionNext]

/-- One step of the driver on a Merge record: defer to the merge loop, then
emit its record and continue from its final position. -/
theorem compactionNext_merge_step {V : Type} (elide : Nat → Bool) (mer : Nat → V → V → V)
    (r : SRec V) (rest : List (SRec V)) (hk : r.kind = InternalKeyKindMerge) :
    compactionNext elide mer false (r :: rest) =
      match mergeCollapse mer r.ukey r.seq r.val rest with
      | none => ([], true)
      | some (em, sk, rem) =>
        (em :: (compactionNext elide mer sk rem).1, (compactionNext elide mer sk rem).2) := by
  have hd : ¬(r.kind = InternalKeyKindDelete) := by
    rw [hk]; simp [InternalKeyKindMerge, InternalKeyKindDelete]
  have hs : ¬(r.kind = InternalKeyKindSet) := by
    rw [hk]; simp [InternalKeyKindMerge, InternalKeyKindSet]
  simp only [compactionNext, if_neg hd, if_neg hs, if_pos hk]
  split
  · rename_i heq
    rw [heq]
  · rename_i em sk rem heq
    rw [heq]

/-- Every record in the output stream of the compaction iterator either
occurs verbatim in the input or is the result of a merge chain: a record of
kind Set or Merge carrying the user key and sequence number of an input Merge
record.  In particular the only kind change the iterator ever performs is
promoting the head of a merge chain to Set. -/
theorem compactionNext_emitted {V : Type} (elide : Nat → Bool) (mer : Nat → V → V → V) :
    ∀ (b : Bool) (l : List (SRec V)) (e : SRec V), e ∈ (compactionNext elide mer b l).1 →
      e ∈ l ∨ ((e.kind = InternalKeyKindSet ∨ e.kind = InternalKeyKindMerge) ∧
        ∃ r, r ∈ l ∧ r.kind = InternalKeyKindMerge ∧ r.ukey = e.ukey ∧ r.seq = e.seq) := by
  intro b l
  induction b, l using compactionNext.induct elide mer with
  | case1 => intro e he; simp [compactionNext] at he
  | case2 r rest ih =>
    intro e he
    simp only [compactionNext] at he
    rcases ih e he with h | ⟨hk, rr, hrr, hrest⟩
    · exact Or.inl (List.dropWhile_subset _ h)
    · exact Or.inr ⟨hk, rr, List.dropWhile_subset _ hrr, hrest⟩
  | case3 => intro e he; simp [compactionNext] at he
  | case4 r rest hk he ih =>
    intro e hme
    simp only [compactionNext, if_pos hk, if_pos he] at hme
    rcases ih e hme with h | ⟨hke, rr, hrr, hrest⟩
    · exact Or.inl (List.dropWhile_subset _ h)
    · exact Or.inr ⟨hke, rr, List.dropWhile_subset _ hrr, hrest⟩
  | case5 r rest hk he ih =>
    intro e hme
    simp only [compactionNext] at ih
    simp only [compactionNext, if_pos hk, if_neg he, List.mem_cons] at hme
    rcases hme with h | hme
    · exact Or.inl (by simp [h])
    · rcases ih e hme with h | ⟨hke, rr, hrr, hrest⟩
      · exact Or.inl h
      · exact Or.inr ⟨hke, rr, hrr, hrest⟩
  | case6 r rest hk hs ih =>
    intro e hme
    simp only [compactionNext] at ih
    simp only [compactionNext, if_neg hk, if_pos hs, List.mem_cons] at hme
    rcases hme with h | hme
    · exact Or.inl (by simp [h])
    · rcases ih e hme with h | ⟨hke, rr, hrr, hrest⟩
      · exact Or.inl h
      · exact Or.inr ⟨hke, rr, hrr, hrest⟩
  | case7 r rest hk hs hmk hm =>
    intro e hme
    rw [compactionNext_merge_step elide mer r rest hmk, hm] at hme
    simp at hme
  | case8 r rest hk hs hmk em sk rem hm ih =>
    intro e hme
    rw [compactionNext_merge_step elide mer r rest hmk, hm] at hme
    simp only [List.mem_cons] at hme
    obtain ⟨hemu, hems, hemk, hrem⟩ := mergeCollapse_emitted mer r.ukey r.seq rest r.val em sk rem hm
    rcases hme with h | hme
    · subst h
      exact Or.inr ⟨hemk, r, List.mem_cons_self r rest, hmk, hemu.symm, hems.symm⟩
    · rcases ih e hme with h | ⟨hke, rr, hrr, hrest⟩
      · exact Or.inl (List.mem_cons_of_mem r (hrem e h))
      · exact Or.inr ⟨hke, rr, List.mem_cons_of_mem r (hrem rr hrr), hrest⟩
  | case9 r rest hk hs hmk =>
    intro e hme
    simp [compactionNext, if_neg hk, if_neg hs, if_neg hmk] at hme

/-- C4, confirmed.  A merge chain ended by a Set record for the same user key
collapses to a single record of kind Set whose value merges the accumulated
chain (folded newest first) with the Set value, after which the iterator
continues past the remaining records of that user key; and the only kind
change the iterator ever performs is this Merge-to-Set promotion: every
emitted record is either an input record or the Set-or-Merge result of a
chain started by an input Merge record. -/
theorem claim_c4 {V : Type} (elide : Nat → Bool) (mer : Nat → V → V → V) :
    (∀ (k sq : Nat) (v0 : V) (ms : List (SRec V)) (s : SRec V) (rest : List (SRec V)),
      (∀ r ∈ ms, r.ukey = k ∧ r.kind = InternalKeyKindMerge) →
      s.ukey = k → s.kind = InternalKeyKindSet →
      compactionNext elide mer false (⟨k, sq, InternalKeyKindMerge, v0⟩ :: (ms ++ s :: rest)) =
        (⟨k, sq, InternalKeyKindSet,
            mer k (ms.foldl (fun a r => mer k a r.val) v0) s.val⟩ ::
          (compactionNext elide mer false (dropSame k (s :: rest))).1,
         (compactionNext elide mer false (dropSame k (s :: rest))).2)) ∧
    (∀ (l : List (SRec V)) (e : SRec V), e ∈ (compactionNext elide mer false l).1 →
      e ∈ l ∨ ((e.kind = InternalKeyKindSet ∨ e.kind = InternalKeyKindMerge) ∧
        ∃ r, r ∈ l ∧ r.kind = InternalKeyKindMerge ∧ r.ukey = e.ukey ∧ r.seq = e.seq)) := by
  constructor
  · intro k sq v0 ms s rest hms hsu hsk
    rw [compactionNext_merge_step elide mer ⟨k, sq, InternalKeyKindMerge, v0⟩
      (ms ++ s :: rest) rfl]
    dsimp only
    rw [mergeCollapse_chain mer k sq ms v0 s rest hms hsu hsk]
    dsimp only
    rw [compactionNext_skip_step elide mer s rest, hsu]
  · exact fun l e h => compactionNext_emitted elide mer false l e h

/-- Witness for C4 at scenario E4: merge = string concatenation, input
a.Merge.4 = d, a.Merge.3 = c, a.Set.2 = b, a.Merge.1 = a; the output is the
single record a.Set.4 = dcb. -/
theorem claim_c4_witness :
    compactionNext (fun _ => false) (fun _ (a b : String) => a ++ b) false
      [⟨0, 4, 2, "d"⟩, ⟨0, 3, 2, "c"⟩, ⟨0, 2, 1, "b"⟩, ⟨0, 1, 2, "a"⟩] =
      ([⟨0, 4, 1, "dcb"⟩], false) := by
  have h := (claim_c4 (fun _ => false) (fun _ (a b : String) => a ++ b)).1 0 4 "d"
    [⟨0, 3, 2, "c"⟩] ⟨0, 2, 1, "b"⟩ [⟨0, 1, 2, "a"⟩]
    (by intro r hr; simp at hr; subst hr; exact ⟨rfl, rfl⟩) rfl rfl
  rw [show ([⟨0, 4, 2, "d"⟩, ⟨0, 3, 2, "c"⟩, ⟨0, 2, 1, "b"⟩, ⟨0, 1, 2, "a"⟩] :
      List (SRec String)) =
    (⟨0, 4, InternalKeyKindMerge, "d"⟩ ::
      ([⟨0, 3, 2, "c"⟩] ++ ⟨0, 2, 1, "b"⟩ :: [⟨0, 1, 2, "a"⟩])) from rfl, h]
  simp [compactionNext, dropSame, InternalKeyKindSet]

end Pebble
